import Mathlib

/-!
Verification of the lite_migrate repository (a miniature migration library for
SQLite databases).

The development shallowly embeds the code of
`lite_migrate/_scripts/migrate.py` and `lite_migrate/steps/_sql_step.py`,
`lite_migrate/steps/_python_step.py`:

* steps (`SQLStep`, `PythonStep`, `BaseStep`) become Lean structures; a step
  application is a function from an optional cursor to `Except StepError Cursor`
  (`None`/missing keyword argument is the falsy case of the `assert`);
* the dependency-graph construction, the DFS topological orderer
  `_check_for_cycles_and_order` (with its inner `_visit`), the execution loop
  `_execute_migrations`, and the coordinator `main` become pure functions that
  return a trace of connection-level events together with an outcome;
* the recursion of `_visit` is embedded with an explicit fuel argument that
  bounds the nesting depth; the fuel used by the top-level entry point is
  proved sufficient (`check_order_not_nofuel`), so the embedding agrees with
  the unbounded Python recursion;
* discovery of migration files on disk and dynamic module loading are external
  input: the model receives the already-listed `(name, module)` pairs in
  directory-listing order.
-/

/-! Constants from `migrate.py`. -/

def LM_MIGRATIONS_TABLE : String := "_lm_migrations"

def LM_MIGRATIONS_SCHEMA : String :=
  "(\n    migration_name TEXT PRIMARY KEY,  -- Name of migration module / standard identifier\n    migration_dt INTEGER -- UNIX timestamp of when the migration was executed\n)"

def LM_INITIAL_NAME : String := "initial"

def LM_LATEST_ALIAS : String := "latest"

/-! Step abstraction, from `lite_migrate/steps`. -/

/-- A database cursor, modelled by the list of statements executed through it.
A freshly created cursor (`conn.cursor()`) has executed nothing. -/
structure Cursor where
  executed : List String
deriving DecidableEq, Repr

/-- An exception escaping a step call: the `assert cur` failing
(`assertionError`) or the step body itself raising (`applicationError`). -/
inductive StepError where
  | assertionError
  | applicationError
deriving DecidableEq, Repr

/-- `SQLStep` from `_sql_step.py`: wraps a literal SQL string. -/
structure SQLStep where
  _sql : String

/-- `PythonStep` from `_python_step.py`: wraps a host callable.  The callable
is opaque code supplied by the migration author; it receives the cursor and
may mutate the database through it or raise. -/
structure PythonStep where
  _callable : Cursor → Except StepError Cursor

/-- `SQLStep.__call__`: `cur = kwargs.get("cur"); assert cur; cur.execute(self._sql)`.
A missing/falsy `cur` keyword argument is `none`. -/
def SQLStep.call (s : SQLStep) (cur : Option Cursor) : Except StepError Cursor :=
  match cur with
  | none => Except.error StepError.assertionError
  | some c => Except.ok (Cursor.mk (c.executed ++ [s._sql]))

/-- `PythonStep.__call__`: `assert kwargs.get("cur"); self._callable(*args, **kwargs)`. -/
def PythonStep.call (p : PythonStep) (cur : Option Cursor) : Except StepError Cursor :=
  match cur with
  | none => Except.error StepError.assertionError
  | some c => p._callable c

/-- `BaseStep` from `_base_step.py`: the abstract step, realized by exactly the
two built-in variants. -/
inductive BaseStep where
  | sqlStep (s : SQLStep)
  | pythonStep (p : PythonStep)

/-- Applying a step the way `_execute_migrations` does: `step(cur=conn.cursor())`,
i.e. always with a fresh (truthy) cursor. -/
def BaseStep.applyFresh : BaseStep → Except StepError Cursor
  | BaseStep.sqlStep s => SQLStep.call s (some (Cursor.mk []))
  | BaseStep.pythonStep p => PythonStep.call p (some (Cursor.mk []))

/-- A migration module after `_load_migration`/`_validate_migration`: an `up`
step list, a `down` step list and the `depends_on` names (in iteration
order). -/
structure Migration where
  up : List BaseStep
  down : List BaseStep
  depends_on : List String

/-! Dependency graph structures. -/

/-- `AdjacencyDict = Dict[str, List[str]]`, as an association list in
insertion order; `defaultdict(list)` lookup of a missing key yields `[]`. -/
abbrev AdjacencyDict : Type := List (String × List String)

/-- Lookup in the adjacency dictionary; a missing key reads as `[]`
(`defaultdict(list)`). -/
def ajLookup (aj : AdjacencyDict) (n : String) : List String :=
  match List.find? (fun p => p.1 == n) aj with
  | some p => p.2
  | none => []

/-- `aj[dm].append(m_name)` on the `defaultdict`: append to the entry of `dm`,
creating it if absent. -/
def ajAppend : AdjacencyDict → String → String → AdjacencyDict
  | [], k, v => [(k, [v])]
  | (k0, vs) :: rest, k, v =>
      if k0 = k then (k0, vs ++ [v]) :: rest else (k0, vs) :: ajAppend rest k v

/-- All dependent names mentioned on the right-hand side of adjacency edges. -/
def ajTargets (aj : AdjacencyDict) : List String :=
  (aj.map Prod.snd).flatten

/-- `migrations[m_name] = m_mod` on the insertion-ordered `dict`. -/
def dictInsert : List (String × Migration) → String → Migration → List (String × Migration)
  | [], k, v => [(k, v)]
  | (k0, v0) :: rest, k, v =>
      if k0 = k then (k0, v) :: rest else (k0, v0) :: dictInsert rest k v

/-- `migrations[name]` lookup. -/
def dictGet : List (String × Migration) → String → Option Migration
  | [], _ => none
  | (k, v) :: rest, n => if k = n then some v else dictGet rest n

/-! Cycle detection and topological ordering, from `_check_for_cycles_and_order`. -/

/-- The mutable state of `_check_for_cycles_and_order`: the recursion-path set
`cycle_check_set`, the set `nodes_seen` of completed nodes, and the result
list `node_ordering` (built by prepending). -/
structure VState where
  cycle_check_set : List String
  nodes_seen : List String
  node_ordering : List String
deriving DecidableEq, Repr

/-- Result of a (possibly nested) `_visit` run: normal return, the
`DependencyCycle` exception, or fuel exhaustion (an artifact of the embedding,
proved unreachable for the fuel used by the entry point). -/
inductive VRes where
  | ok (s : VState)
  | cyc
  | nofuel
deriving DecidableEq, Repr

/-- The inner recursive `_visit` of `_check_for_cycles_and_order`.  The `Nat`
argument is recursion fuel: one unit per nesting level.  The `foldl` is the
`for m in aj[n]: _visit(m)` loop, with an exception (a non-`ok` result)
aborting the remainder of the loop. -/
def visitF (aj : AdjacencyDict) : Nat → String → VState → VRes
  | 0, _, _ => VRes.nofuel
  | Nat.succ f, n, s =>
    if n ∈ s.nodes_seen then VRes.ok s
    else if n ∈ s.cycle_check_set then VRes.cyc
    else
      match (ajLookup aj n).foldl
          (fun r m =>
            match r with
            | VRes.ok s' => visitF aj f m s'
            | r' => r')
          (VRes.ok (VState.mk (n :: s.cycle_check_set) s.nodes_seen s.node_ordering)) with
      | VRes.ok s2 =>
          VRes.ok (VState.mk (s2.cycle_check_set.erase n) (n :: s2.nodes_seen)
            (n :: s2.node_ordering))
      | r => r

/-- Running `_visit` over a list of start nodes in order, stopping at the
first exception. -/
def visitFold (aj : AdjacencyDict) (f : Nat) (l : List String) (s : VState) : VRes :=
  l.foldl
    (fun r m =>
      match r with
      | VRes.ok s' => visitF aj f m s'
      | r' => r')
    (VRes.ok s)

/-- Fuel given to the entry point: (number of listed nodes plus number of
edge targets) + 1, an upper bound on the DFS nesting depth plus one. -/
def fuelFor (migKeys : List String) (aj : AdjacencyDict) : Nat :=
  (migKeys ++ ajTargets aj).length + 1

/-- `_check_for_cycles_and_order(migrations, aj)`.  The `while rem_nodes:
node = rem_nodes.pop(); _visit(node)` loop pops from the end of
`[*migrations.keys()]`, so the keys are visited in reverse listing order. -/
def check_for_cycles_and_order (migKeys : List String) (aj : AdjacencyDict) : VRes :=
  visitFold aj (fuelFor migKeys aj) migKeys.reverse (VState.mk [] [] [])

/-! Execution engine, from `_execute_migrations`. -/

/-- A connection-level event observable during a run: a statement executed by
the coordinator's cursor, a step application (identified by migration name and
position of the step in that migration's `up` list), a `conn.commit()`, or an
insertion of an applied-migration bookkeeping row.  The traced code never
emits `insertRecord`; the constructor names what writing an
`AppliedMigrationRecord` into `_lm_migrations` would be. -/
inductive MEvent where
  | execStmt (sql : String)
  | applyStep (migration : String) (idx : Nat)
  | commit
  | insertRecord (migration : String)
deriving DecidableEq, Repr

/-- How `_execute_migrations` ended: normally, with a step raising, or with a
`KeyError` on `migrations[name]` (proved unreachable from `mainModel`). -/
inductive ExecStatus where
  | success
  | stepFailed
  | nameMissing
deriving DecidableEq, Repr

/-- The inner loop of `_execute_migrations` for one migration:
`for step in migrations[...].up: step(cur=conn.cursor()); conn.commit()`.
A step that raises aborts the remainder; the commit for a failed step never
happens. -/
def execSteps (migName : String) : Nat → List BaseStep → List MEvent × Bool
  | _, [] => ([], true)
  | i, st :: rest =>
    match st.applyFresh with
    | Except.ok _ =>
        let r := execSteps migName (i + 1) rest
        (MEvent.applyStep migName i :: MEvent.commit :: r.1, r.2)
    | Except.error _ => ([MEvent.applyStep migName i], false)

/-- `_execute_migrations(conn, migrations, migrations_order)`: the
`while to_execute: ... to_execute.pop(0)` loop processes the order
front-to-back. -/
def executeMigrations (migrations : List (String × Migration)) :
    List String → List MEvent × ExecStatus
  | [] => ([], ExecStatus.success)
  | m :: rest =>
    match dictGet migrations m with
    | none => ([], ExecStatus.nameMissing)
    | some mg =>
        let r := execSteps m 0 mg.up
        if r.2 then
          let r2 := executeMigrations migrations rest
          (r.1 ++ r2.1, r2.2)
        else (r.1, ExecStatus.stepFailed)

/-! Run coordinator, from `main`. -/

/-- How a whole run ends.  `fuelExhausted` and `missingMigrationKey` are
artifacts of the embedding, proved unreachable. -/
inductive Outcome where
  | success
  | forbiddenMigrationName
  | dependencyCycle
  | stepApplicationFailure
  | missingMigrationKey
  | fuelExhausted
deriving DecidableEq, Repr

/-- The migration-loading loop of `main`, over the discovered `(name, module)`
pairs in directory-listing order.  A module named `latest` raises
`ForbiddenMigrationName` (modelled as `none`) before it is loaded; otherwise
the module is stored into the migrations dict, appended to `roots` if its
`depends_on` is empty, and `aj[dm].append(m_name)` is run for each
dependency. -/
def loadLoop :
    List (String × Migration) → List (String × Migration) → AdjacencyDict →
      List String → Option (List (String × Migration) × AdjacencyDict × List String)
  | [], migs, aj, roots => some (migs, aj, roots)
  | (name, mig) :: files, migs, aj, roots =>
    if name = LM_LATEST_ALIAS then none
    else
      loadLoop files (dictInsert migs name mig)
        (mig.depends_on.foldl (fun a dm => ajAppend a dm name) aj)
        (if mig.depends_on.isEmpty then roots ++ [name] else roots)

def loadAll (files : List (String × Migration)) :
    Option (List (String × Migration) × AdjacencyDict × List String) :=
  loadLoop files [] [] []

/-- The four statements `main` executes on its cursor before loading
migrations. -/
def setupTrace : List MEvent :=
  [MEvent.execStmt "PRAGMA journal_mode=WAL",
   MEvent.execStmt "PRAGMA wal_autocheckpoint=0",
   MEvent.execStmt "BEGIN IMMEDIATE",
   MEvent.execStmt ("CREATE TABLE IF NOT EXISTS " ++ LM_MIGRATIONS_TABLE ++ " " ++
     LM_MIGRATIONS_SCHEMA)]

def checkpointStmt : String := "PRAGMA wal_checkpoint(TRUNCATE)"

def restoreJournalStmt : String := "PRAGMA journal_mode=DELETE"

/-- The traced behaviour of `main`: connection setup, the loading loop, cycle
check / topological ordering, migration execution, and — only when execution
returned normally — the WAL checkpoint and journal-mode restore.  Any raised
exception propagates (there is no handler in `main`), so the statements after
the failing phase never run. -/
def mainModel (files : List (String × Migration)) : List MEvent × Outcome :=
  match loadAll files with
  | none => (setupTrace, Outcome.forbiddenMigrationName)
  | some (migs, aj, _roots) =>
    match check_for_cycles_and_order (migs.map Prod.fst) aj with
    | VRes.cyc => (setupTrace, Outcome.dependencyCycle)
    | VRes.nofuel => (setupTrace, Outcome.fuelExhausted)
    | VRes.ok st =>
      let r := executeMigrations migs st.node_ordering
      match r.2 with
      | ExecStatus.success =>
          (setupTrace ++ r.1 ++
             [MEvent.execStmt checkpointStmt, MEvent.execStmt restoreJournalStmt],
           Outcome.success)
      | ExecStatus.stepFailed => (setupTrace ++ r.1, Outcome.stepApplicationFailure)
      | ExecStatus.nameMissing => (setupTrace ++ r.1, Outcome.missingMigrationKey)

/-! Pure builder functions: the graph that the loading loop constructs when no
name is forbidden (used to state claims about the ordering phase). -/

def migsFold : List (String × Migration) → List (String × Migration) →
    List (String × Migration)
  | [], acc => acc
  | (n, m) :: fs, acc => migsFold fs (dictInsert acc n m)

def ajFold : List (String × Migration) → AdjacencyDict → AdjacencyDict
  | [], acc => acc
  | (n, m) :: fs, acc => ajFold fs (m.depends_on.foldl (fun a dm => ajAppend a dm n) acc)

def rootsFold : List (String × Migration) → List String → List String
  | [], acc => acc
  | (n, m) :: fs, acc => rootsFold fs (if m.depends_on.isEmpty then acc ++ [n] else acc)

def migsOf (files : List (String × Migration)) : List (String × Migration) :=
  migsFold files []

def ajOf (files : List (String × Migration)) : AdjacencyDict :=
  ajFold files []

def rootsOf (files : List (String × Migration)) : List String :=
  rootsFold files []

/-! Trace observations. -/

def commitCount (tr : List MEvent) : Nat :=
  tr.countP (fun e => match e with | MEvent.commit => true | _ => false)

def applyCount (tr : List MEvent) : Nat :=
  tr.countP (fun e => match e with | MEvent.applyStep _ _ => true | _ => false)

def insertCount (tr : List MEvent) : Nat :=
  tr.countP (fun e => match e with | MEvent.insertRecord _ => true | _ => false)

/-- The sequence of step applications in a trace, as (migration, index) pairs. -/
def applySeq (tr : List MEvent) : List (String × Nat) :=
  tr.filterMap (fun e => match e with | MEvent.applyStep m i => some (m, i) | _ => none)

/-- Checks that a trace is a run of (apply, commit) pairs, possibly ending in
a single apply with no matching commit (the failed step). -/
def stepCommitShape : List MEvent → Bool
  | [] => true
  | [MEvent.applyStep _ _] => true
  | MEvent.applyStep _ _ :: MEvent.commit :: rest => stepCommitShape rest
  | _ => false

/-! The dependency relation and cycles. -/

/-- One edge of the adjacency dictionary: `erel aj u v` holds when `v` is a
direct dependent of `u` (edge `u → v`, "u must run before v"). -/
def erel (aj : AdjacencyDict) (u v : String) : Prop :=
  v ∈ ajLookup aj u

instance (aj : AdjacencyDict) (u v : String) : Decidable (erel aj u v) :=
  inferInstanceAs (Decidable (v ∈ ajLookup aj u))

/-- The graph has a cycle: some node reaches itself through at least one edge. -/
def hasCycle (aj : AdjacencyDict) : Prop :=
  ∃ n, Relation.TransGen (erel aj) n n

/-- The ordering respects all adjacency edges: whenever the list splits at a
node, every direct dependent of that node occurs strictly later. -/
def topoOk (aj : AdjacencyDict) (order : List String) : Prop :=
  ∀ l1 u l2, order = l1 ++ u :: l2 → ∀ v, v ∈ ajLookup aj u → v ∈ l2

/-! Statement-level definitions used by the proofs: DFS state invariants,
fuel-sufficiency and cycle-propagation statements, expected traces, and the
concrete example inputs used by counterexamples and witnesses. -/

/-- Invariant of the visit state: `nodes_seen` and `node_ordering` hold the
same names, the ordering has no duplicates, and it respects all edges. -/
def stInv (aj : AdjacencyDict) (s : VState) : Prop :=
  (∀ x, x ∈ s.nodes_seen ↔ x ∈ s.node_ordering) ∧
  s.node_ordering.Nodup ∧ topoOk aj s.node_ordering

/-- What a successful single `_visit` guarantees, at a given fuel. -/
def masterF (aj : AdjacencyDict) (f : Nat) : Prop :=
  ∀ n s s2, visitF aj f n s = VRes.ok s2 →
    s2.cycle_check_set = s.cycle_check_set ∧
    (∀ x, x ∈ s.nodes_seen → x ∈ s2.nodes_seen) ∧
    n ∈ s2.nodes_seen ∧
    (∀ x, x ∈ s2.nodes_seen →
      x ∈ s.nodes_seen ∨ (x ∉ s.cycle_check_set ∧ (x = n ∨ x ∈ ajTargets aj))) ∧
    (stInv aj s → stInv aj s2)

/-- What a successful `_visit` loop over a node list guarantees. -/
def masterL (aj : AdjacencyDict) (f : Nat) : Prop :=
  ∀ l s s2, visitFold aj f l s = VRes.ok s2 →
    s2.cycle_check_set = s.cycle_check_set ∧
    (∀ x, x ∈ s.nodes_seen → x ∈ s2.nodes_seen) ∧
    (∀ m, m ∈ l → m ∈ s2.nodes_seen) ∧
    (∀ x, x ∈ s2.nodes_seen →
      x ∈ s.nodes_seen ∨ (x ∉ s.cycle_check_set ∧ (x ∈ l ∨ x ∈ ajTargets aj))) ∧
    (stInv aj s → stInv aj s2)

def suffF (aj : AdjacencyDict) (univ : List String) (f : Nat) : Prop :=
  ∀ n s, s.cycle_check_set.Nodup → (∀ x, x ∈ s.cycle_check_set → x ∈ univ) →
    n ∈ univ → univ.length + 1 ≤ f + s.cycle_check_set.length →
    visitF aj f n s ≠ VRes.nofuel

def suffL (aj : AdjacencyDict) (univ : List String) (f : Nat) : Prop :=
  ∀ l s, s.cycle_check_set.Nodup → (∀ x, x ∈ s.cycle_check_set → x ∈ univ) →
    (∀ m, m ∈ l → m ∈ univ) → univ.length + 1 ≤ f + s.cycle_check_set.length →
    visitFold aj f l s ≠ VRes.nofuel

/-- The recursion-path set, most recent node first, is a chain of adjacency
edges pointing from older to newer entries. -/
def ccChain (aj : AdjacencyDict) (cc : List String) : Prop :=
  List.Chain' (fun a b => erel aj b a) cc

def cycF (aj : AdjacencyDict) (f : Nat) : Prop :=
  ∀ n s, ccChain aj s.cycle_check_set →
    (s.cycle_check_set = [] ∨
      ∃ h t, s.cycle_check_set = h :: t ∧ n ∈ ajLookup aj h) →
    visitF aj f n s = VRes.cyc → hasCycle aj

def cycL (aj : AdjacencyDict) (f : Nat) : Prop :=
  ∀ l s, ccChain aj s.cycle_check_set →
    (s.cycle_check_set = [] ∨
      ∃ h t, s.cycle_check_set = h :: t ∧ ∀ m, m ∈ l → m ∈ ajLookup aj h) →
    visitFold aj f l s = VRes.cyc → hasCycle aj

/-- The trace a fully successful step loop produces: an (apply, commit) pair
per step, indices counting up from `i`. -/
def pairsTrace (m : String) : Nat → Nat → List MEvent
  | _, 0 => []
  | i, Nat.succ k => MEvent.applyStep m i :: MEvent.commit :: pairsTrace m (i + 1) k

/-- Length of the `up` list of the named migration (0 when absent). -/
def upLen (migs : List (String × Migration)) (m : String) : Nat :=
  match dictGet migs m with
  | some mg => mg.up.length
  | none => 0

def sqlStepOf (s : String) : BaseStep := BaseStep.sqlStep (SQLStep.mk s)

/-- A step whose Python callable raises. -/
def failingStep : BaseStep :=
  BaseStep.pythonStep (PythonStep.mk (fun _ => Except.error StepError.applicationError))

/-- One migration with two up-steps. -/
def exTwoSteps : List (String × Migration) :=
  [("m1", Migration.mk [sqlStepOf "CREATE TABLE t (x INTEGER)",
    sqlStepOf "CREATE TABLE u (y INTEGER)"] [] [])]

/-- One migration with a single up-step. -/
def exSingle : List (String × Migration) :=
  [("m1", Migration.mk [sqlStepOf "CREATE TABLE t (x INTEGER)"] [] [])]

/-- A migration depending on a name absent from the set. -/
def exOrphan : List (String × Migration) :=
  [("orphan", Migration.mk [sqlStepOf "CREATE TABLE t (x INTEGER)"] [] ["ghost"])]

/-- Two migrations depending on each other: a dependency cycle. -/
def exCycPair : List (String × Migration) :=
  [("a", Migration.mk [sqlStepOf "CREATE TABLE ta (x INTEGER)"] [] ["b"]),
   ("b", Migration.mk [sqlStepOf "CREATE TABLE tb (x INTEGER)"] [] ["a"])]

/-- A root migration and a child depending on it. -/
def exRootChild : List (String × Migration) :=
  [("root", Migration.mk [sqlStepOf "CREATE TABLE r (x INTEGER)"] [] []),
   ("child", Migration.mk [sqlStepOf "CREATE TABLE c (x INTEGER)"] [] ["root"])]

/-- A discovered migration literally named `latest`. -/
def exLatest : List (String × Migration) :=
  [("latest", Migration.mk [sqlStepOf "CREATE TABLE t (x INTEGER)"] [] [])]

/-! Unfolding lemmas for the fuelled DFS. -/

lemma visitFold_nil (aj : AdjacencyDict) (f : Nat) (s : VState) :
    visitFold aj f [] s = VRes.ok s := rfl

lemma visitFold_foldl_absorb (aj : AdjacencyDict) (f : Nat) (l : List String) (r : VRes)
    (h : ∀ s, r ≠ VRes.ok s) :
    l.foldl
      (fun r m =>
        match r with
        | VRes.ok s' => visitF aj f m s'
        | r' => r') r = r := by
  induction l with
  | nil => rfl
  | cons m ms ih =>
      cases r with
      | ok s => exact absurd rfl (h s)
      | cyc => simpa using ih
      | nofuel => simpa using ih

lemma visitFold_cons (aj : AdjacencyDict) (f : Nat) (m : String) (ms : List String)
    (s : VState) :
    visitFold aj f (m :: ms) s =
      match visitF aj f m s with
      | VRes.ok s2 => visitFold aj f ms s2
      | r => r := by
  cases h : visitF aj f m s with
  | ok s2 => simp [visitFold, h]
  | cyc => simp [visitFold, h, visitFold_foldl_absorb]
  | nofuel => simp [visitFold, h, visitFold_foldl_absorb]

lemma visitF_succ (aj : AdjacencyDict) (f : Nat) (n : String) (s : VState) :
    visitF aj (Nat.succ f) n s =
      (if n ∈ s.nodes_seen then VRes.ok s
       else if n ∈ s.cycle_check_set then VRes.cyc
       else
         match visitFold aj f (ajLookup aj n)
             (VState.mk (n :: s.cycle_check_set) s.nodes_seen s.node_ordering) with
         | VRes.ok s2 =>
             VRes.ok (VState.mk (s2.cycle_check_set.erase n) (n :: s2.nodes_seen)
               (n :: s2.node_ordering))
         | r => r) := rfl

lemma ajLookup_subset_targets (aj : AdjacencyDict) (n x : String)
    (h : x ∈ ajLookup aj n) : x ∈ ajTargets aj := by
  unfold ajLookup at h
  cases hf : List.find? (fun p => p.1 == n) aj with
  | none => rw [hf] at h; simp at h
  | some p =>
      rw [hf] at h
      have hp : p ∈ aj := List.mem_of_find?_eq_some hf
      exact List.mem_flatten.mpr ⟨p.2, List.mem_map_of_mem Prod.snd hp, h⟩

/-! The state invariant preserved by a successful `_visit`, and the master
structural lemma about successful runs. -/

lemma masterF_succ (aj : AdjacencyDict) (f : Nat) (hL : masterL aj f) :
    masterF aj (Nat.succ f) := by
  intro n s s2 h
  rw [visitF_succ] at h
  by_cases h1 : n ∈ s.nodes_seen
  · rw [if_pos h1] at h
    injection h with h1'
    subst h1'
    exact ⟨rfl, fun x hx => hx, h1, fun x hx => Or.inl hx, id⟩
  · rw [if_neg h1] at h
    by_cases h2 : n ∈ s.cycle_check_set
    · rw [if_pos h2] at h
      exact VRes.noConfusion h
    · rw [if_neg h2] at h
      cases hfold : visitFold aj f (ajLookup aj n)
          (VState.mk (n :: s.cycle_check_set) s.nodes_seen s.node_ordering) with
      | ok s3 =>
          rw [hfold] at h
          injection h with h3
          subst h3
          obtain ⟨hcc, hmono, hchild, hprov, hinv⟩ := hL _ _ _ hfold
          have hcc' : s3.cycle_check_set = n :: s.cycle_check_set := hcc
          refine ⟨?_, ?_, ?_, ?_, ?_⟩
          · show s3.cycle_check_set.erase n = s.cycle_check_set
            rw [hcc']
            exact List.erase_cons_head n s.cycle_check_set
          · intro x hx
            exact List.mem_cons_of_mem _ (hmono x hx)
          · exact List.mem_cons_self _ _
          · intro x hx
            rcases List.mem_cons.mp hx with rfl | hx3
            · exact Or.inr ⟨h2, Or.inl rfl⟩
            · rcases hprov x hx3 with hlhs | ⟨hnc, hor⟩
              · exact Or.inl hlhs
              · refine Or.inr ⟨fun hc => hnc (List.mem_cons_of_mem _ hc), ?_⟩
                rcases hor with hlk | htg
                · exact Or.inr (ajLookup_subset_targets aj n x hlk)
                · exact Or.inr htg
          · intro hI
            have hI3 : stInv aj s3 := hinv hI
            obtain ⟨hiff, hnd, htopo⟩ := hI3
            have hnotseen : n ∉ s3.nodes_seen := by
              intro hn
              rcases hprov n hn with hl | ⟨hnc, _⟩
              · exact h1 hl
              · exact hnc (List.mem_cons_self _ _)
            have hnotord : n ∉ s3.node_ordering := fun hn => hnotseen ((hiff n).mpr hn)
            refine ⟨?_, ?_, ?_⟩
            · intro x
              show x ∈ n :: s3.nodes_seen ↔ x ∈ n :: s3.node_ordering
              simp [List.mem_cons, hiff x]
            · exact List.nodup_cons.mpr ⟨hnotord, hnd⟩
            · intro l1 u l2 heq v hv
              cases l1 with
              | nil =>
                  rw [List.nil_append] at heq
                  injection heq with h4 h5
                  subst h4
                  subst h5
                  exact (hiff v).mp (hchild v hv)
              | cons a l1' =>
                  rw [List.cons_append] at heq
                  injection heq with h4 h5
                  exact htopo l1' u l2 h5 v hv
      | cyc =>
          rw [hfold] at h
          exact VRes.noConfusion h
      | nofuel =>
          rw [hfold] at h
          exact VRes.noConfusion h

lemma masterL_of (aj : AdjacencyDict) (f : Nat) (hF : masterF aj f) : masterL aj f := by
  intro l
  induction l with
  | nil =>
      intro s s2 h
      rw [visitFold_nil] at h
      injection h with h1
      subst h1
      exact ⟨rfl, fun x hx => hx, by simp, fun x hx => Or.inl hx, id⟩
  | cons m ms ih =>
      intro s s2 h
      rw [visitFold_cons] at h
      cases hv : visitF aj f m s with
      | ok s3 =>
          rw [hv] at h
          obtain ⟨c1, c2, c3, c4, c5⟩ := hF _ _ _ hv
          obtain ⟨d1, d2, d3, d4, d5⟩ := ih _ _ h
          refine ⟨by rw [d1, c1], fun x hx => d2 x (c2 x hx), ?_, ?_, fun hI => d5 (c5 hI)⟩
          · intro m' hm'
            rcases List.mem_cons.mp hm' with rfl | hm2
            · exact d2 m' c3
            · exact d3 m' hm2
          · intro x hx
            rcases d4 x hx with hx3 | ⟨hnc3, hor3⟩
            · rcases c4 x hx3 with hxs | ⟨hnc, hor⟩
              · exact Or.inl hxs
              · refine Or.inr ⟨hnc, ?_⟩
                rcases hor with rfl | htg
                · exact Or.inl (List.mem_cons_self _ _)
                · exact Or.inr htg
            · rw [c1] at hnc3
              refine Or.inr ⟨hnc3, ?_⟩
              rcases hor3 with hms | htg
              · exact Or.inl (List.mem_cons_of_mem _ hms)
              · exact Or.inr htg
      | cyc =>
          rw [hv] at h
          exact VRes.noConfusion h
      | nofuel =>
          rw [hv] at h
          exact VRes.noConfusion h

lemma master (aj : AdjacencyDict) : ∀ f, masterF aj f ∧ masterL aj f := by
  intro f
  induction f with
  | zero =>
      have hF : masterF aj 0 := by
        intro n s s2 h
        exact VRes.noConfusion h
      exact ⟨hF, masterL_of aj 0 hF⟩
  | succ f ih =>
      have hF := masterF_succ aj f ih.2
      exact ⟨hF, masterL_of aj (Nat.succ f) hF⟩

/-! Fuel sufficiency: `nofuel` is unreachable with the fuel chosen by the
entry point, because the recursion-path set grows by one distinct element of
the finite node universe for each nesting level. -/

lemma cc_length_le (univ cc : List String) (hnd : cc.Nodup)
    (hsub : ∀ x, x ∈ cc → x ∈ univ) : cc.length ≤ univ.length :=
  (List.Nodup.subperm hnd (fun x hx => hsub x hx)).length_le

lemma suffF_zero (aj : AdjacencyDict) (univ : List String) : suffF aj univ 0 := by
  intro n s hnd hsub _ hle
  have := cc_length_le univ s.cycle_check_set hnd hsub
  omega

lemma suffL_of (aj : AdjacencyDict) (univ : List String) (f : Nat)
    (hF : suffF aj univ f) : suffL aj univ f := by
  intro l
  induction l with
  | nil =>
      intro s _ _ _ _
      rw [visitFold_nil]
      exact fun h => VRes.noConfusion h
  | cons m ms ih =>
      intro s hnd hsub hl hle
      rw [visitFold_cons]
      cases hv : visitF aj f m s with
      | ok s3 =>
          have hcc : s3.cycle_check_set = s.cycle_check_set := ((master aj f).1 _ _ _ hv).1
          have := ih s3 (hcc ▸ hnd) (fun x hx => hsub x (hcc ▸ hx))
            (fun m' hm' => hl m' (List.mem_cons_of_mem _ hm')) (by rw [hcc]; exact hle)
          exact this
      | cyc => exact fun h => VRes.noConfusion h
      | nofuel =>
          exact absurd hv (hF m s hnd hsub (hl m (List.mem_cons_self _ _)) hle)

lemma suffF_succ (aj : AdjacencyDict) (univ : List String) (f : Nat)
    (hT : ∀ x, x ∈ ajTargets aj → x ∈ univ) (hL : suffL aj univ f) :
    suffF aj univ (Nat.succ f) := by
  intro n s hnd hsub hn hle
  rw [visitF_succ]
  by_cases h1 : n ∈ s.nodes_seen
  · rw [if_pos h1]
    exact fun h => VRes.noConfusion h
  · rw [if_neg h1]
    by_cases h2 : n ∈ s.cycle_check_set
    · rw [if_pos h2]
      exact fun h => VRes.noConfusion h
    · rw [if_neg h2]
      cases hfold : visitFold aj f (ajLookup aj n)
          (VState.mk (n :: s.cycle_check_set) s.nodes_seen s.node_ordering) with
      | ok s3 => exact fun h => VRes.noConfusion h
      | cyc => exact fun h => VRes.noConfusion h
      | nofuel =>
          refine absurd hfold (hL (ajLookup aj n)
            (VState.mk (n :: s.cycle_check_set) s.nodes_seen s.node_ordering)
            (List.nodup_cons.mpr ⟨h2, hnd⟩) ?_ ?_ ?_)
          · intro x hx
            rcases List.mem_cons.mp hx with rfl | hx2
            · exact hn
            · exact hsub x hx2
          · exact fun m hm => hT m (ajLookup_subset_targets aj n m hm)
          · show univ.length + 1 ≤ f + (n :: s.cycle_check_set).length
            simp only [List.length_cons]
            omega

lemma suff (aj : AdjacencyDict) (univ : List String)
    (hT : ∀ x, x ∈ ajTargets aj → x ∈ univ) :
    ∀ f, suffF aj univ f ∧ suffL aj univ f := by
  intro f
  induction f with
  | zero =>
      exact ⟨suffF_zero aj univ, suffL_of aj univ 0 (suffF_zero aj univ)⟩
  | succ f ih =>
      have hF := suffF_succ aj univ f hT ih.2
      exact ⟨hF, suffL_of aj univ (Nat.succ f) hF⟩

/-- The entry point never exhausts its fuel. -/
lemma check_order_not_nofuel (migKeys : List String) (aj : AdjacencyDict) :
    check_for_cycles_and_order migKeys aj ≠ VRes.nofuel := by
  unfold check_for_cycles_and_order
  refine (suff aj (migKeys ++ ajTargets aj)
    (fun x hx => List.mem_append_right _ hx) (fuelFor migKeys aj)).2
    migKeys.reverse (VState.mk [] [] []) (by simp) (by simp) ?_ ?_
  · intro m hm
    exact List.mem_append_left _ (List.mem_reverse.mp hm)
  · show (migKeys ++ ajTargets aj).length + 1 ≤ fuelFor migKeys aj + ([] : List String).length
    simp [fuelFor]

/-! A raised `DependencyCycle` really means the graph has a cycle: the
recursion-path set is a path in the adjacency graph, and finding the current
node on it closes a cycle. -/

lemma chain_reach (aj : AdjacencyDict) :
    ∀ (t : List String) (h : String), ccChain aj (h :: t) →
      ∀ n, n ∈ h :: t → Relation.ReflTransGen (erel aj) n h := by
  intro t
  induction t with
  | nil =>
      intro h _ n hn
      rcases List.mem_cons.mp hn with rfl | hn2
      · exact Relation.ReflTransGen.refl
      · simp at hn2
  | cons h2 t2 ih =>
      intro h hch n hn
      rcases List.mem_cons.mp hn with rfl | hn2
      · exact Relation.ReflTransGen.refl
      · obtain ⟨hedge, hch2⟩ := List.chain'_cons.mp hch
        exact (ih h2 hch2 n hn2).tail hedge

lemma cycF_zero (aj : AdjacencyDict) : cycF aj 0 := by
  intro n s _ _ h
  exact VRes.noConfusion h

lemma cycL_of (aj : AdjacencyDict) (f : Nat) (hF : cycF aj f) : cycL aj f := by
  intro l
  induction l with
  | nil =>
      intro s _ _ h
      rw [visitFold_nil] at h
      exact VRes.noConfusion h
  | cons m ms ih =>
      intro s hch hcond h
      rw [visitFold_cons] at h
      cases hv : visitF aj f m s with
      | ok s3 =>
          rw [hv] at h
          have hcc : s3.cycle_check_set = s.cycle_check_set := ((master aj f).1 _ _ _ hv).1
          refine ih s3 (by rw [ccChain, hcc]; exact hch) ?_ h
          rcases hcond with hnil | ⟨hh, ht, hcc2, hall⟩
          · exact Or.inl (by rw [hcc, hnil])
          · exact Or.inr ⟨hh, ht, by rw [hcc, hcc2],
              fun m' hm' => hall m' (List.mem_cons_of_mem _ hm')⟩
      | cyc =>
          refine hF m s hch ?_ hv
          rcases hcond with hnil | ⟨hh, ht, hcc2, hall⟩
          · exact Or.inl hnil
          · exact Or.inr ⟨hh, ht, hcc2, hall m (List.mem_cons_self _ _)⟩
      | nofuel =>
          rw [hv] at h
          exact VRes.noConfusion h

lemma cycF_succ (aj : AdjacencyDict) (f : Nat) (hL : cycL aj f) :
    cycF aj (Nat.succ f) := by
  intro n s hch hcond h
  rw [visitF_succ] at h
  by_cases h1 : n ∈ s.nodes_seen
  · rw [if_pos h1] at h
    exact VRes.noConfusion h
  · rw [if_neg h1] at h
    by_cases h2 : n ∈ s.cycle_check_set
    · rcases hcond with hnil | ⟨hh, ht, hcc2, hlk⟩
      · rw [hnil] at h2
        simp at h2
      · rw [hcc2] at h2 hch
        have hreach : Relation.ReflTransGen (erel aj) n hh :=
          chain_reach aj ht hh hch n h2
        exact ⟨n, Relation.TransGen.tail' hreach hlk⟩
    · rw [if_neg h2] at h
      cases hfold : visitFold aj f (ajLookup aj n)
          (VState.mk (n :: s.cycle_check_set) s.nodes_seen s.node_ordering) with
      | ok s3 =>
          rw [hfold] at h
          exact VRes.noConfusion h
      | cyc =>
          refine hL (ajLookup aj n)
            (VState.mk (n :: s.cycle_check_set) s.nodes_seen s.node_ordering) ?_ ?_ hfold
          · show List.Chain' (fun a b => erel aj b a) (n :: s.cycle_check_set)
            rcases hcond with hnil | ⟨hh, ht, hcc2, hlk⟩
            · rw [hnil]
              exact List.chain'_singleton n
            · rw [hcc2]
              rw [hcc2] at hch
              exact List.chain'_cons.mpr ⟨hlk, hch⟩
          · exact Or.inr ⟨n, s.cycle_check_set, rfl, fun m hm => hm⟩
      | nofuel =>
          rw [hfold] at h
          exact VRes.noConfusion h

lemma cyc_lemma (aj : AdjacencyDict) : ∀ f, cycF aj f ∧ cycL aj f := by
  intro f
  induction f with
  | zero => exact ⟨cycF_zero aj, cycL_of aj 0 (cycF_zero aj)⟩
  | succ f ih =>
      have hF := cycF_succ aj f ih.2
      exact ⟨hF, cycL_of aj (Nat.succ f) hF⟩

/-- If the entry point raises `DependencyCycle`, the graph has a cycle. -/
lemma check_order_cyc_hasCycle (migKeys : List String) (aj : AdjacencyDict)
    (h : check_for_cycles_and_order migKeys aj = VRes.cyc) : hasCycle aj :=
  (cyc_lemma aj (fuelFor migKeys aj)).2 migKeys.reverse (VState.mk [] [] [])
    List.chain'_nil (Or.inl rfl) h

/-! What a successful run of the entry point guarantees. -/

lemma check_order_ok_facts (migKeys : List String) (aj : AdjacencyDict) (st : VState)
    (h : check_for_cycles_and_order migKeys aj = VRes.ok st) :
    (∀ x, x ∈ st.nodes_seen ↔ x ∈ st.node_ordering) ∧
    st.node_ordering.Nodup ∧ topoOk aj st.node_ordering ∧
    (∀ k, k ∈ migKeys → k ∈ st.node_ordering) ∧
    (∀ x, x ∈ st.node_ordering → x ∈ migKeys ∨ x ∈ ajTargets aj) := by
  obtain ⟨_, _, hchild, hprov, hinv⟩ :=
    (master aj (fuelFor migKeys aj)).2 _ _ _ h
  have hI : stInv aj st := by
    refine hinv ⟨fun x => Iff.rfl, List.nodup_nil, ?_⟩
    intro l1 u l2 heq v hv
    simp at heq
  obtain ⟨hiff, hnd, htopo⟩ := hI
  refine ⟨hiff, hnd, htopo, ?_, ?_⟩
  · intro k hk
    exact (hiff k).mp (hchild k (List.mem_reverse.mpr hk))
  · intro x hx
    rcases hprov x ((hiff x).mpr hx) with hinit | ⟨_, hor⟩
    · simp at hinit
    · rcases hor with hrev | htg
      · exact Or.inl (List.mem_reverse.mp hrev)
      · exact Or.inr htg

/-- A successful ordering over a graph whose edge targets all belong to the
listed keys rules out any cycle: the order would have to place some node
strictly after itself. -/
lemma check_order_ok_no_cycle (migKeys : List String) (aj : AdjacencyDict) (st : VState)
    (h : check_for_cycles_and_order migKeys aj = VRes.ok st)
    (hTK : ∀ x, x ∈ ajTargets aj → x ∈ migKeys) : ¬ hasCycle aj := by
  obtain ⟨hiff, hnd, htopo, hcomp, hprov⟩ := check_order_ok_facts migKeys aj st h
  rintro ⟨n, htg⟩
  obtain ⟨w, hrw, hwn⟩ := Relation.TransGen.tail'_iff.mp htg
  have hnord : n ∈ st.node_ordering :=
    hcomp n (hTK n (ajLookup_subset_targets aj w n hwn))
  have hsplit : ∀ a b, Relation.TransGen (erel aj) a b → a ∈ st.node_ordering →
      ∃ l1 l2, st.node_ordering = l1 ++ a :: l2 ∧ b ∈ l2 := by
    intro a b hab
    induction hab with
    | single hr =>
        intro ha
        obtain ⟨l1, l2, heq⟩ := List.append_of_mem ha
        exact ⟨l1, l2, heq, htopo l1 a l2 heq _ hr⟩
    | tail hac hr ih =>
        intro ha
        obtain ⟨l1, l2, heq, hc⟩ := ih ha
        obtain ⟨l21, l22, heq2⟩ := List.append_of_mem hc
        have hb := htopo (l1 ++ a :: l21) _ l22 (by rw [heq, heq2]; simp) _ hr
        refine ⟨l1, l2, heq, ?_⟩
        rw [heq2]
        exact List.mem_append_right _ (List.mem_cons_of_mem _ hb)
  obtain ⟨l1, l2, heq, hn2⟩ := hsplit n n htg hnord
  have hnd2 : (l1 ++ n :: l2).Nodup := heq ▸ hnd
  exact (List.nodup_cons.mp hnd2.of_append_right).1 hn2

/-! Properties of the graph builder. -/

lemma ajLookup_cons (k0 : String) (vs : List String) (rest : AdjacencyDict) (n : String) :
    ajLookup ((k0, vs) :: rest) n = if k0 = n then vs else ajLookup rest n := by
  by_cases h : k0 = n
  · unfold ajLookup
    rw [List.find?_cons_of_pos _ (by simp [h])]
    simp [h]
  · unfold ajLookup
    rw [List.find?_cons_of_neg _ (by simp [h])]
    simp [h]

lemma ajLookup_ajAppend_self (aj : AdjacencyDict) (k v : String) :
    ajLookup (ajAppend aj k v) k = ajLookup aj k ++ [v] := by
  induction aj with
  | nil => simp [ajAppend, ajLookup_cons, ajLookup]
  | cons p rest ih =>
      obtain ⟨k0, vs⟩ := p
      by_cases hk : k0 = k
      · simp [ajAppend, hk, ajLookup_cons]
      · simp [ajAppend, hk, ajLookup_cons, ih]

lemma ajLookup_ajAppend_other (aj : AdjacencyDict) (k v u : String) (hne : u ≠ k) :
    ajLookup (ajAppend aj k v) u = ajLookup aj u := by
  have hku : ¬(k = u) := fun e => hne e.symm
  induction aj with
  | nil =>
      show ajLookup [(k, [v])] u = ajLookup [] u
      rw [ajLookup_cons, if_neg hku]
  | cons p rest ih =>
      obtain ⟨k0, vs⟩ := p
      by_cases hk : k0 = k
      · rw [show ajAppend ((k0, vs) :: rest) k v = (k0, vs ++ [v]) :: rest from by
          simp [ajAppend, hk]]
        rw [ajLookup_cons, ajLookup_cons]
        have hk0u : ¬(k0 = u) := by rw [hk]; exact hku
        rw [if_neg hk0u, if_neg hk0u]
      · rw [show ajAppend ((k0, vs) :: rest) k v = (k0, vs) :: ajAppend rest k v from by
          simp [ajAppend, hk]]
        rw [ajLookup_cons, ajLookup_cons]
        by_cases hu : k0 = u
        · rw [if_pos hu, if_pos hu]
        · rw [if_neg hu, if_neg hu, ih]

lemma depsFold_lookup_of_not_mem (deps : List String) (n : String) (acc : AdjacencyDict)
    (u : String) (h : u ∉ deps) :
    ajLookup (deps.foldl (fun a dm => ajAppend a dm n) acc) u = ajLookup acc u := by
  induction deps generalizing acc with
  | nil => rfl
  | cons d ds ih =>
      have hne : u ≠ d := fun e => h (e ▸ List.mem_cons_self _ _)
      have hds : u ∉ ds := fun e => h (List.mem_cons_of_mem _ e)
      rw [List.foldl_cons, ih _ hds, ajLookup_ajAppend_other _ _ _ _ hne]

lemma ajFold_lookup_of_no_dep (files : List (String × Migration)) (acc : AdjacencyDict)
    (u : String) (h : ∀ p, p ∈ files → u ∉ p.2.depends_on) :
    ajLookup (ajFold files acc) u = ajLookup acc u := by
  induction files generalizing acc with
  | nil => rfl
  | cons p fs ih =>
      obtain ⟨nm, mg⟩ := p
      show ajLookup (ajFold fs (mg.depends_on.foldl (fun a dm => ajAppend a dm nm) acc)) u =
        ajLookup acc u
      rw [ih _ (fun q hq => h q (List.mem_cons_of_mem _ hq)),
        depsFold_lookup_of_not_mem _ _ _ _ (h (nm, mg) (List.mem_cons_self _ _))]

lemma ajTargets_cons (k0 : String) (vs : List String) (rest : AdjacencyDict) :
    ajTargets ((k0, vs) :: rest) = vs ++ ajTargets rest := by
  simp [ajTargets]

lemma ajTargets_ajAppend (aj : AdjacencyDict) (k v x : String)
    (h : x ∈ ajTargets (ajAppend aj k v)) : x ∈ ajTargets aj ∨ x = v := by
  induction aj with
  | nil =>
      rw [show ajAppend [] k v = [(k, [v])] from rfl, ajTargets_cons] at h
      simp [ajTargets] at h
      exact Or.inr h
  | cons p rest ih =>
      obtain ⟨k0, vs⟩ := p
      by_cases hk : k0 = k
      · rw [show ajAppend ((k0, vs) :: rest) k v = (k0, vs ++ [v]) :: rest from by
          simp [ajAppend, hk], ajTargets_cons] at h
        rw [ajTargets_cons]
        rcases List.mem_append.mp h with h1 | h1
        · rcases List.mem_append.mp h1 with h2 | h2
          · exact Or.inl (List.mem_append_left _ h2)
          · exact Or.inr (by simpa using h2)
        · exact Or.inl (List.mem_append_right _ h1)
      · rw [show ajAppend ((k0, vs) :: rest) k v = (k0, vs) :: ajAppend rest k v from by
          simp [ajAppend, hk], ajTargets_cons] at h
        rw [ajTargets_cons]
        rcases List.mem_append.mp h with h1 | h1
        · exact Or.inl (List.mem_append_left _ h1)
        · rcases ih h1 with h2 | h2
          · exact Or.inl (List.mem_append_right _ h2)
          · exact Or.inr h2

lemma depsFold_targets (deps : List String) (n : String) (acc : AdjacencyDict) (x : String)
    (h : x ∈ ajTargets (deps.foldl (fun a dm => ajAppend a dm n) acc)) :
    x ∈ ajTargets acc ∨ x = n := by
  induction deps generalizing acc with
  | nil => exact Or.inl h
  | cons d ds ih =>
      rw [List.foldl_cons] at h
      rcases ih _ h with h2 | h2
      · exact ajTargets_ajAppend _ _ _ _ h2
      · exact Or.inr h2

lemma ajFold_targets (files : List (String × Migration)) (acc : AdjacencyDict) (x : String)
    (h : x ∈ ajTargets (ajFold files acc)) :
    x ∈ ajTargets acc ∨ x ∈ files.map Prod.fst := by
  induction files generalizing acc with
  | nil => exact Or.inl h
  | cons p fs ih =>
      obtain ⟨nm, mg⟩ := p
      have h' : x ∈ ajTargets (ajFold fs (mg.depends_on.foldl (fun a dm => ajAppend a dm nm) acc)) := h
      rcases ih _ h' with h2 | h2
      · rcases depsFold_targets _ _ _ _ h2 with h3 | h3
        · exact Or.inl h3
        · exact Or.inr (by simp [h3])
      · exact Or.inr (List.mem_cons_of_mem _ h2)

/-- Every dependent recorded in the built adjacency dictionary is the name of
one of the loaded migrations. -/
lemma ajOf_targets_subset (files : List (String × Migration)) (x : String)
    (h : x ∈ ajTargets (ajOf files)) : x ∈ files.map Prod.fst := by
  rcases ajFold_targets files [] x h with h2 | h2
  · simp [ajTargets] at h2
  · exact h2

/-- A nonempty adjacency entry can only come from some migration's
`depends_on`. -/
lemma ajOf_lookup_nonempty (files : List (String × Migration)) (u : String)
    (h : ajLookup (ajOf files) u ≠ []) : ∃ p, p ∈ files ∧ u ∈ p.2.depends_on := by
  by_contra hc
  push_neg at hc
  exact h (ajFold_lookup_of_no_dep files [] u hc)

/-! Properties of the migrations dict builder. -/

lemma dictInsert_keys (d : List (String × Migration)) (k : String) (v : Migration)
    (x : String) :
    x ∈ (dictInsert d k v).map Prod.fst ↔ x ∈ d.map Prod.fst ∨ x = k := by
  induction d with
  | nil => simp [dictInsert]
  | cons p rest ih =>
      obtain ⟨k0, v0⟩ := p
      by_cases hk : k0 = k
      · subst hk
        simp [dictInsert]
        tauto
      · simp [dictInsert, hk, ih]
        tauto

lemma migsFold_keys (files : List (String × Migration)) :
    ∀ (acc : List (String × Migration)) (x : String),
      x ∈ (migsFold files acc).map Prod.fst ↔
        x ∈ acc.map Prod.fst ∨ x ∈ files.map Prod.fst := by
  induction files with
  | nil =>
      intro acc x
      simp [migsFold]
  | cons p fs ih =>
      intro acc x
      obtain ⟨nm, mg⟩ := p
      show x ∈ (migsFold fs (dictInsert acc nm mg)).map Prod.fst ↔ _
      rw [ih, dictInsert_keys, List.map_cons, List.mem_cons]
      tauto

lemma migsOf_keys (files : List (String × Migration)) (x : String) :
    x ∈ (migsOf files).map Prod.fst ↔ x ∈ files.map Prod.fst := by
  have := migsFold_keys files [] x
  simpa [migsOf] using this

lemma dictInsert_keys_of_not_mem (d : List (String × Migration)) (k : String) (v : Migration)
    (h : k ∉ d.map Prod.fst) :
    (dictInsert d k v).map Prod.fst = d.map Prod.fst ++ [k] := by
  induction d with
  | nil => simp [dictInsert]
  | cons p rest ih =>
      obtain ⟨k0, v0⟩ := p
      have hk : k0 ≠ k := by
        intro e
        exact h (by simp [e])
      have h2 : k ∉ rest.map Prod.fst := by
        intro e
        exact h (by rw [List.map_cons]; exact List.mem_cons_of_mem _ e)
      rw [show dictInsert ((k0, v0) :: rest) k v = (k0, v0) :: dictInsert rest k v from by
        simp [dictInsert, hk]]
      simp [ih h2]

lemma migsFold_keys_eq (files : List (String × Migration)) :
    ∀ acc : List (String × Migration),
      (∀ n, n ∈ files.map Prod.fst → n ∉ acc.map Prod.fst) →
      (files.map Prod.fst).Nodup →
      (migsFold files acc).map Prod.fst = acc.map Prod.fst ++ files.map Prod.fst := by
  induction files with
  | nil => intro acc _ _; simp [migsFold]
  | cons p fs ih =>
      intro acc hdisj hnd
      obtain ⟨nm, mg⟩ := p
      show (migsFold fs (dictInsert acc nm mg)).map Prod.fst = _
      have h1 : nm ∉ acc.map Prod.fst := hdisj nm (by simp)
      have hnd2 : (fs.map Prod.fst).Nodup := (List.nodup_cons.mp hnd).2
      have hnm : nm ∉ fs.map Prod.fst := (List.nodup_cons.mp hnd).1
      rw [ih (dictInsert acc nm mg) ?_ hnd2, dictInsert_keys_of_not_mem _ _ _ h1]
      · simp
      · intro n hn
        rw [dictInsert_keys]
        push_neg
        refine ⟨hdisj n (List.mem_cons_of_mem _ hn), ?_⟩
        intro e
        exact hnm (e ▸ hn)

lemma migsOf_keys_eq (files : List (String × Migration))
    (hnd : (files.map Prod.fst).Nodup) :
    (migsOf files).map Prod.fst = files.map Prod.fst := by
  have := migsFold_keys_eq files [] (by simp) hnd
  simpa [migsOf] using this

/-! Properties of the loading loop. -/

lemma loadLoop_none (files : List (String × Migration)) :
    ∀ migs aj roots, LM_LATEST_ALIAS ∈ files.map Prod.fst →
      loadLoop files migs aj roots = none := by
  induction files with
  | nil => intro _ _ _ h; simp at h
  | cons p fs ih =>
      intro migs aj roots h
      obtain ⟨nm, mg⟩ := p
      by_cases hn : nm = LM_LATEST_ALIAS
      · simp [loadLoop, hn]
      · have h2 : LM_LATEST_ALIAS ∈ fs.map Prod.fst := by
          rcases (by simpa using h : LM_LATEST_ALIAS = nm ∨ LM_LATEST_ALIAS ∈ fs.map Prod.fst) with
            h3 | h3
          · exact absurd h3.symm hn
          · exact h3
        simp only [loadLoop, if_neg hn]
        exact ih _ _ _ h2

lemma loadLoop_some (files : List (String × Migration)) :
    ∀ migs aj roots, LM_LATEST_ALIAS ∉ files.map Prod.fst →
      loadLoop files migs aj roots =
        some (migsFold files migs, ajFold files aj, rootsFold files roots) := by
  induction files with
  | nil => intro _ _ _ _; rfl
  | cons p fs ih =>
      intro migs aj roots h
      obtain ⟨nm, mg⟩ := p
      have hn : nm ≠ LM_LATEST_ALIAS := by
        intro e
        exact h (by simp [e])
      have h2 : LM_LATEST_ALIAS ∉ fs.map Prod.fst := by
        intro e
        exact h (by simp [e])
      simp only [loadLoop, if_neg hn]
      exact ih _ _ _ h2

lemma loadAll_none (files : List (String × Migration))
    (h : LM_LATEST_ALIAS ∈ files.map Prod.fst) : loadAll files = none :=
  loadLoop_none files [] [] [] h

lemma loadAll_some (files : List (String × Migration))
    (h : LM_LATEST_ALIAS ∉ files.map Prod.fst) :
    loadAll files = some (migsOf files, ajOf files, rootsOf files) :=
  loadLoop_some files [] [] [] h

/-! Execution-engine lemmas. -/

lemma execSteps_ok_trace (steps : List BaseStep) : ∀ i m,
    (execSteps m i steps).2 = true →
    (execSteps m i steps).1 = pairsTrace m i steps.length := by
  induction steps with
  | nil => intro i m _; rfl
  | cons st rest ih =>
      intro i m h
      cases ha : st.applyFresh with
      | ok c =>
          simp only [execSteps, ha] at h ⊢
          rw [List.length_cons]
          show MEvent.applyStep m i :: MEvent.commit :: (execSteps m (i + 1) rest).1 =
            MEvent.applyStep m i :: MEvent.commit :: pairsTrace m (i + 1) rest.length
          rw [ih (i + 1) m h]
      | error e =>
          simp only [execSteps, ha] at h
          exact Bool.noConfusion h

lemma pairsTrace_commitCount (m : String) : ∀ k i,
    commitCount (pairsTrace m i k) = k := by
  intro k
  induction k with
  | zero => intro i; rfl
  | succ k ih =>
      intro i
      have h := ih (i + 1)
      show commitCount (MEvent.applyStep m i :: MEvent.commit :: pairsTrace m (i + 1) k) = k + 1
      rw [commitCount] at h ⊢
      rw [List.countP_cons, List.countP_cons, h]
      rfl

lemma pairsTrace_applyCount (m : String) : ∀ k i,
    applyCount (pairsTrace m i k) = k := by
  intro k
  induction k with
  | zero => intro i; rfl
  | succ k ih =>
      intro i
      have h := ih (i + 1)
      show applyCount (MEvent.applyStep m i :: MEvent.commit :: pairsTrace m (i + 1) k) = k + 1
      rw [applyCount] at h ⊢
      rw [List.countP_cons, List.countP_cons, h]
      rfl

lemma pairsTrace_applySeq (m : String) : ∀ k i,
    applySeq (pairsTrace m i k) = (List.range k).map (fun j => (m, i + j)) := by
  intro k
  induction k with
  | zero => intro i; rfl
  | succ k ih =>
      intro i
      show applySeq (MEvent.applyStep m i :: MEvent.commit :: pairsTrace m (i + 1) k) = _
      rw [List.range_succ_eq_map]
      simp only [applySeq, List.filterMap_cons] at ih ⊢
      rw [show (List.filterMap _ (pairsTrace m (i + 1) k) : List (String × Nat)) =
        (List.range k).map (fun j => (m, i + 1 + j)) from ih (i + 1)]
      simp only [List.map_cons, List.map_map]
      refine congrArg₂ List.cons (by simp) ?_
      congr 1
      funext a
      simp only [Function.comp_apply]
      congr 1
      omega

lemma stepCommitShape_pairs_append (m : String) : ∀ k i (rest : List MEvent),
    stepCommitShape (pairsTrace m i k ++ rest) = stepCommitShape rest := by
  intro k
  induction k with
  | zero => intro i rest; rfl
  | succ k ih =>
      intro i rest
      show stepCommitShape (MEvent.applyStep m i :: MEvent.commit ::
        (pairsTrace m (i + 1) k ++ rest)) = stepCommitShape rest
      rw [show stepCommitShape (MEvent.applyStep m i :: MEvent.commit ::
        (pairsTrace m (i + 1) k ++ rest)) =
        stepCommitShape (pairsTrace m (i + 1) k ++ rest) from rfl]
      exact ih (i + 1) rest

lemma execSteps_fail_shape (steps : List BaseStep) : ∀ i m,
    (execSteps m i steps).2 = false →
    stepCommitShape (execSteps m i steps).1 = true := by
  induction steps with
  | nil => intro i m h; simp [execSteps] at h
  | cons st rest ih =>
      intro i m h
      cases ha : st.applyFresh with
      | ok c =>
          simp only [execSteps, ha] at h ⊢
          show stepCommitShape (MEvent.applyStep m i :: MEvent.commit ::
            (execSteps m (i + 1) rest).1) = true
          rw [show stepCommitShape (MEvent.applyStep m i :: MEvent.commit ::
            (execSteps m (i + 1) rest).1) =
            stepCommitShape (execSteps m (i + 1) rest).1 from rfl]
          exact ih (i + 1) m h
      | error e =>
          simp only [execSteps, ha]
          rfl

lemma execSteps_events (steps : List BaseStep) : ∀ i m e,
    e ∈ (execSteps m i steps).1 →
    (∃ j, e = MEvent.applyStep m j) ∨ e = MEvent.commit := by
  induction steps with
  | nil => intro i m e he; simp [execSteps] at he
  | cons st rest ih =>
      intro i m e he
      cases ha : st.applyFresh with
      | ok c =>
          simp only [execSteps, ha] at he
          rcases List.mem_cons.mp he with rfl | he2
          · exact Or.inl ⟨i, rfl⟩
          · rcases List.mem_cons.mp he2 with rfl | he3
            · exact Or.inr rfl
            · exact ih (i + 1) m e he3
      | error e2 =>
          simp only [execSteps, ha] at he
          rcases List.mem_cons.mp he with rfl | he2
          · exact Or.inl ⟨i, rfl⟩
          · simp at he2

lemma executeMigrations_events (migs : List (String × Migration)) : ∀ ord e,
    e ∈ (executeMigrations migs ord).1 →
    (∃ mg j, e = MEvent.applyStep mg j) ∨ e = MEvent.commit := by
  intro ord
  induction ord with
  | nil => intro e he; simp [executeMigrations] at he
  | cons m rest ih =>
      intro e he
      cases hg : dictGet migs m with
      | none => simp [executeMigrations, hg] at he
      | some mg =>
          simp only [executeMigrations, hg] at he
          cases hr : (execSteps m 0 mg.up).2 with
          | true =>
              rw [if_pos hr] at he
              rcases List.mem_append.mp he with h1 | h1
              · rcases execSteps_events mg.up 0 m e h1 with ⟨j, hj⟩ | hj
                · exact Or.inl ⟨m, j, hj⟩
                · exact Or.inr hj
              · exact ih e h1
          | false =>
              rw [if_neg (by simp [hr])] at he
              rcases execSteps_events mg.up 0 m e he with ⟨j, hj⟩ | hj
              · exact Or.inl ⟨m, j, hj⟩
              · exact Or.inr hj

lemma executeMigrations_shape (migs : List (String × Migration)) : ∀ ord,
    stepCommitShape (executeMigrations migs ord).1 = true := by
  intro ord
  induction ord with
  | nil => rfl
  | cons m rest ih =>
      cases hg : dictGet migs m with
      | none => simp [executeMigrations, hg]; rfl
      | some mg =>
          simp only [executeMigrations, hg]
          by_cases hr : (execSteps m 0 mg.up).2 = true
          · rw [if_pos hr]
            show stepCommitShape ((execSteps m 0 mg.up).1 ++
              (executeMigrations migs rest).1) = true
            rw [execSteps_ok_trace mg.up 0 m hr, stepCommitShape_pairs_append]
            exact ih
          · rw [if_neg hr]
            exact execSteps_fail_shape mg.up 0 m ((Bool.not_eq_true _).mp hr)

lemma executeMigrations_success_counts (migs : List (String × Migration)) : ∀ ord,
    (executeMigrations migs ord).2 = ExecStatus.success →
    commitCount (executeMigrations migs ord).1 =
      applyCount (executeMigrations migs ord).1 := by
  intro ord
  induction ord with
  | nil => intro _; rfl
  | cons m rest ih =>
      intro h
      cases hg : dictGet migs m with
      | none => simp [executeMigrations, hg] at h
      | some mg =>
          simp only [executeMigrations, hg] at h ⊢
          by_cases hr : (execSteps m 0 mg.up).2 = true
          · rw [if_pos hr] at h ⊢
            show commitCount ((execSteps m 0 mg.up).1 ++ (executeMigrations migs rest).1) = _
            rw [execSteps_ok_trace mg.up 0 m hr]
            have hic := pairsTrace_commitCount m mg.up.length 0
            have hia := pairsTrace_applyCount m mg.up.length 0
            rw [commitCount] at hic
            rw [applyCount] at hia
            simp only [commitCount, applyCount, List.countP_append] at ih ⊢
            rw [hic, hia, ih h]
          · rw [if_neg hr] at h
            exact absurd h (by simp)

lemma executeMigrations_success_applySeq (migs : List (String × Migration)) : ∀ ord,
    (executeMigrations migs ord).2 = ExecStatus.success →
    applySeq (executeMigrations migs ord).1 =
      (ord.map (fun m => (List.range (upLen migs m)).map (fun i => (m, i)))).flatten := by
  intro ord
  induction ord with
  | nil => intro _; rfl
  | cons m rest ih =>
      intro h
      cases hg : dictGet migs m with
      | none => simp [executeMigrations, hg] at h
      | some mg =>
          simp only [executeMigrations, hg] at h ⊢
          by_cases hr : (execSteps m 0 mg.up).2 = true
          · rw [if_pos hr] at h ⊢
            show applySeq ((execSteps m 0 mg.up).1 ++ (executeMigrations migs rest).1) = _
            rw [List.map_cons, List.flatten_cons]
            have hps := pairsTrace_applySeq m mg.up.length 0
            rw [applySeq] at hps
            simp only [applySeq, List.filterMap_append] at ih ⊢
            rw [execSteps_ok_trace mg.up 0 m hr, hps, ih h]
            have hu : upLen migs m = mg.up.length := by simp [upLen, hg]
            rw [hu]
            simp
          · rw [if_neg hr] at h
            exact absurd h (by simp)

/-! Trace-level lemmas about `mainModel`. -/

lemma exec_no_execStmt (migs : List (String × Migration)) (ord : List String) (s : String) :
    MEvent.execStmt s ∉ (executeMigrations migs ord).1 := by
  intro hmem
  rcases executeMigrations_events migs ord _ hmem with ⟨mg, j, he⟩ | he <;> simp at he

lemma exec_insertCount_zero (migs : List (String × Migration)) (ord : List String) :
    insertCount (executeMigrations migs ord).1 = 0 := by
  rw [insertCount, List.countP_eq_zero]
  intro e he
  rcases executeMigrations_events migs ord e he with ⟨mg, j, rfl⟩ | rfl <;> simp

lemma mainModel_forbidden_eq (files : List (String × Migration))
    (h : loadAll files = none) :
    mainModel files = (setupTrace, Outcome.forbiddenMigrationName) := by
  simp [mainModel, h]

lemma insertCount_setup : insertCount setupTrace = 0 := by decide

lemma mainModel_cyc_eq (files : List (String × Migration)) (migs : List (String × Migration))
    (aj : AdjacencyDict) (roots : List String)
    (hl : loadAll files = some (migs, aj, roots))
    (hc : check_for_cycles_and_order (migs.map Prod.fst) aj = VRes.cyc) :
    mainModel files = (setupTrace, Outcome.dependencyCycle) := by
  simp [mainModel, hl, hc]

lemma mainModel_nofuel_eq (files : List (String × Migration)) (migs : List (String × Migration))
    (aj : AdjacencyDict) (roots : List String)
    (hl : loadAll files = some (migs, aj, roots))
    (hc : check_for_cycles_and_order (migs.map Prod.fst) aj = VRes.nofuel) :
    mainModel files = (setupTrace, Outcome.fuelExhausted) := by
  simp [mainModel, hl, hc]

lemma mainModel_success_eq (files : List (String × Migration)) (migs : List (String × Migration))
    (aj : AdjacencyDict) (roots : List String) (st : VState)
    (hl : loadAll files = some (migs, aj, roots))
    (hc : check_for_cycles_and_order (migs.map Prod.fst) aj = VRes.ok st)
    (hs : (executeMigrations migs st.node_ordering).2 = ExecStatus.success) :
    mainModel files =
      (setupTrace ++ ((executeMigrations migs st.node_ordering).1 ++
        [MEvent.execStmt checkpointStmt, MEvent.execStmt restoreJournalStmt]),
       Outcome.success) := by
  simp [mainModel, hl, hc, hs]

lemma mainModel_stepFailed_eq (files : List (String × Migration))
    (migs : List (String × Migration)) (aj : AdjacencyDict) (roots : List String) (st : VState)
    (hl : loadAll files = some (migs, aj, roots))
    (hc : check_for_cycles_and_order (migs.map Prod.fst) aj = VRes.ok st)
    (hs : (executeMigrations migs st.node_ordering).2 = ExecStatus.stepFailed) :
    mainModel files =
      (setupTrace ++ (executeMigrations migs st.node_ordering).1,
       Outcome.stepApplicationFailure) := by
  simp [mainModel, hl, hc, hs]

lemma mainModel_nameMissing_eq (files : List (String × Migration))
    (migs : List (String × Migration)) (aj : AdjacencyDict) (roots : List String) (st : VState)
    (hl : loadAll files = some (migs, aj, roots))
    (hc : check_for_cycles_and_order (migs.map Prod.fst) aj = VRes.ok st)
    (hs : (executeMigrations migs st.node_ordering).2 = ExecStatus.nameMissing) :
    mainModel files =
      (setupTrace ++ (executeMigrations migs st.node_ordering).1,
       Outcome.missingMigrationKey) := by
  simp [mainModel, hl, hc, hs]

/-! C10 — cursor assertion in the built-in step variants. -/

/-- C10: calling either built-in step variant without a truthy `cur` keyword
argument raises `AssertionError` before any database work or callable
invocation (the result does not depend on the wrapped callable); with a
cursor supplied, the assertion cannot fire and `SQLStep` executes exactly its
stored SQL string on that cursor. -/
theorem step_cursor_assertion :
    (∀ s : SQLStep, SQLStep.call s none = Except.error StepError.assertionError) ∧
    (∀ p : PythonStep, PythonStep.call p none = Except.error StepError.assertionError) ∧
    (∀ f g : Cursor → Except StepError Cursor,
      PythonStep.call (PythonStep.mk f) none = PythonStep.call (PythonStep.mk g) none) ∧
    (∀ (s : SQLStep) (c : Cursor),
      SQLStep.call s (some c) = Except.ok (Cursor.mk (c.executed ++ [s._sql]))) :=
  ⟨fun _ => rfl, fun _ => rfl, fun _ _ => rfl, fun _ _ => rfl⟩

/-! C1 — the engine commits per step, not per migration. -/

/-- C1 counterexample: a single migration with two up-steps runs to success
with two commits in its trace, not one commit for the one migration — so the
engine does not commit once per migration. -/
theorem commit_once_per_migration_refuted :
    (executeMigrations exTwoSteps ["m1"]).2 = ExecStatus.success ∧
    commitCount (executeMigrations exTwoSteps ["m1"]).1 = 2 ∧
    commitCount (executeMigrations exTwoSteps ["m1"]).1 ≠ (["m1"] : List String).length ∧
    (executeMigrations exTwoSteps ["m1"]).1 =
      [MEvent.applyStep "m1" 0, MEvent.commit, MEvent.applyStep "m1" 1, MEvent.commit] :=
  ⟨rfl, rfl, by decide, rfl⟩

/-- C1 (amended): the execution engine commits once per up-step — every
successful step application is immediately followed by a commit (the trace is
a run of apply/commit pairs, possibly ending in the one failed apply), and on
a fully successful run the number of commits equals the number of step
applications, not the number of migrations. -/
theorem per_step_commit_trace (migs : List (String × Migration)) (ord : List String) :
    stepCommitShape (executeMigrations migs ord).1 = true ∧
    ((executeMigrations migs ord).2 = ExecStatus.success →
      commitCount (executeMigrations migs ord).1 =
        applyCount (executeMigrations migs ord).1) :=
  ⟨executeMigrations_shape migs ord, executeMigrations_success_counts migs ord⟩

theorem per_step_commit_trace_witness :
    stepCommitShape (executeMigrations exTwoSteps ["m1"]).1 = true ∧
    commitCount (executeMigrations exTwoSteps ["m1"]).1 =
      applyCount (executeMigrations exTwoSteps ["m1"]).1 :=
  ⟨(per_step_commit_trace exTwoSteps ["m1"]).1,
   (per_step_commit_trace exTwoSteps ["m1"]).2 rfl⟩

/-! C7 — execution follows the computed order, steps in listed order. -/

/-- C7: on a successful run the sequence of step applications is exactly the
concatenation, over the ordered migrations, of each migration's up-steps in
listed order: every step of the migration at position i runs before any step
of the migration at position i+1, and steps within a migration run by
ascending index. -/
theorem execution_follows_order (migs : List (String × Migration)) (ord : List String)
    (h : (executeMigrations migs ord).2 = ExecStatus.success) :
    applySeq (executeMigrations migs ord).1 =
      (ord.map (fun m => (List.range (upLen migs m)).map (fun i => (m, i)))).flatten :=
  executeMigrations_success_applySeq migs ord h

theorem execution_follows_order_witness :
    applySeq (executeMigrations exRootChild ["root", "child"]).1 =
      ((["root", "child"] : List String).map
        (fun m => (List.range (upLen exRootChild m)).map (fun i => (m, i)))).flatten :=
  execution_follows_order exRootChild ["root", "child"] rfl

/-! C3 — the bookkeeping table is never written. -/

/-- C3: no run of the coordinator ever emits an insertion of an
`AppliedMigrationRecord` row — the `_lm_migrations` table is created and then
never written, even when a migration completes successfully and commits
(shown on a concrete single-migration run). -/
theorem bookkeeping_insert_never_emitted :
    (∀ files, insertCount (mainModel files).1 = 0) ∧
    (mainModel exSingle).2 = Outcome.success ∧
    commitCount (mainModel exSingle).1 = 1 := by
  refine ⟨?_, rfl, rfl⟩
  intro files
  have h1 := insertCount_setup
  have h2 := exec_insertCount_zero
  cases hload : loadAll files with
  | none =>
      rw [mainModel_forbidden_eq files hload]
      exact h1
  | some trip =>
      obtain ⟨migs, aj, roots⟩ := trip
      cases hord : check_for_cycles_and_order (migs.map Prod.fst) aj with
      | cyc =>
          rw [mainModel_cyc_eq files migs aj roots hload hord]
          exact h1
      | nofuel =>
          rw [mainModel_nofuel_eq files migs aj roots hload hord]
          exact h1
      | ok st =>
          have h3 := h2 migs st.node_ordering
          rw [insertCount] at h1 h3
          cases hst : (executeMigrations migs st.node_ordering).2 with
          | success =>
              rw [mainModel_success_eq files migs aj roots st hload hord hst]
              show insertCount (setupTrace ++ _) = 0
              rw [insertCount, List.countP_append, List.countP_append, h1, h3]
              rfl
          | stepFailed =>
              rw [mainModel_stepFailed_eq files migs aj roots st hload hord hst]
              show insertCount (setupTrace ++ _) = 0
              rw [insertCount, List.countP_append, h1, h3]
          | nameMissing =>
              rw [mainModel_nameMissing_eq files migs aj roots st hload hord hst]
              show insertCount (setupTrace ++ _) = 0
              rw [insertCount, List.countP_append, h1, h3]

/-! C6 — the checkpoint runs only on the success path. -/

/-- C6: the WAL checkpoint statement (and the journal-mode restore) appears in
a run's trace exactly when the run succeeds; on every failing run — forbidden
name, dependency cycle, or step application failure — neither statement is
ever executed. -/
theorem checkpoint_only_on_success (files : List (String × Migration)) :
    (MEvent.execStmt checkpointStmt ∈ (mainModel files).1 ∨
     MEvent.execStmt restoreJournalStmt ∈ (mainModel files).1) ↔
    (mainModel files).2 = Outcome.success := by
  have hck : MEvent.execStmt checkpointStmt ∉ setupTrace := by decide
  have hrs : MEvent.execStmt restoreJournalStmt ∉ setupTrace := by decide
  cases hload : loadAll files with
  | none =>
      rw [mainModel_forbidden_eq files hload]
      constructor
      · rintro (h | h)
        · exact absurd h hck
        · exact absurd h hrs
      · intro h
        exact Outcome.noConfusion h
  | some trip =>
      obtain ⟨migs, aj, roots⟩ := trip
      cases hord : check_for_cycles_and_order (migs.map Prod.fst) aj with
      | cyc =>
          rw [mainModel_cyc_eq files migs aj roots hload hord]
          constructor
          · rintro (h | h)
            · exact absurd h hck
            · exact absurd h hrs
          · intro h
            exact Outcome.noConfusion h
      | nofuel =>
          rw [mainModel_nofuel_eq files migs aj roots hload hord]
          constructor
          · rintro (h | h)
            · exact absurd h hck
            · exact absurd h hrs
          · intro h
            exact Outcome.noConfusion h
      | ok st =>
          cases hst : (executeMigrations migs st.node_ordering).2 with
          | success =>
              rw [mainModel_success_eq files migs aj roots st hload hord hst]
              constructor
              · intro _
                rfl
              · intro _
                left
                exact List.mem_append_right _
                  (List.mem_append_right _ (by simp))
          | stepFailed =>
              rw [mainModel_stepFailed_eq files migs aj roots st hload hord hst]
              constructor
              · rintro (h | h)
                · rcases List.mem_append.mp h with h2 | h2
                  · exact absurd h2 hck
                  · exact absurd h2 (exec_no_execStmt migs st.node_ordering _)
                · rcases List.mem_append.mp h with h2 | h2
                  · exact absurd h2 hrs
                  · exact absurd h2 (exec_no_execStmt migs st.node_ordering _)
              · intro h
                exact Outcome.noConfusion h
          | nameMissing =>
              rw [mainModel_nameMissing_eq files migs aj roots st hload hord hst]
              constructor
              · rintro (h | h)
                · rcases List.mem_append.mp h with h2 | h2
                  · exact absurd h2 hck
                  · exact absurd h2 (exec_no_execStmt migs st.node_ordering _)
                · rcases List.mem_append.mp h with h2 | h2
                  · exact absurd h2 hrs
                  · exact absurd h2 (exec_no_execStmt migs st.node_ordering _)
              · intro h
                exact Outcome.noConfusion h

/-! C8 — a migration named by the reserved alias aborts the run. -/

/-- C8: whenever any discovered migration is named by the reserved alias
`latest` — regardless of that migration's steps and dependencies, which never
influence the result — the whole run ends with `ForbiddenMigrationName`; the
trace is exactly the connection setup: no ordering result is used, no step is
applied and nothing is committed. -/
theorem latest_name_rejected (files : List (String × Migration))
    (h : LM_LATEST_ALIAS ∈ files.map Prod.fst) :
    mainModel files = (setupTrace, Outcome.forbiddenMigrationName) ∧
    applyCount (mainModel files).1 = 0 ∧ commitCount (mainModel files).1 = 0 := by
  have he := mainModel_forbidden_eq files (loadAll_none files h)
  refine ⟨he, ?_, ?_⟩ <;> rw [he] <;> decide

theorem latest_name_rejected_witness :
    mainModel exLatest = (setupTrace, Outcome.forbiddenMigrationName) ∧
    applyCount (mainModel exLatest).1 = 0 ∧ commitCount (mainModel exLatest).1 = 0 :=
  latest_name_rejected exLatest (by decide)

/-! C5 — a dependency cycle aborts the run before any execution. -/

/-- C5: for every migration set (with no forbidden name) whose built
dependency graph contains a cycle, the run ends with `DependencyCycle` and
its trace is exactly the connection setup — the execution engine is never
reached and no step's apply is ever invoked. -/
theorem cycle_aborts_before_execution (files : List (String × Migration))
    (h1 : LM_LATEST_ALIAS ∉ files.map Prod.fst)
    (h2 : hasCycle (ajOf files)) :
    mainModel files = (setupTrace, Outcome.dependencyCycle) ∧
    applyCount (mainModel files).1 = 0 := by
  have hload := loadAll_some files h1
  have hTK : ∀ x, x ∈ ajTargets (ajOf files) → x ∈ (migsOf files).map Prod.fst := by
    intro x hx
    exact (migsOf_keys files x).mpr (ajOf_targets_subset files x hx)
  cases hord : check_for_cycles_and_order ((migsOf files).map Prod.fst) (ajOf files) with
  | ok st => exact absurd h2 (check_order_ok_no_cycle _ _ st hord hTK)
  | nofuel => exact absurd hord (check_order_not_nofuel _ _)
  | cyc =>
      have he := mainModel_cyc_eq files (migsOf files) (ajOf files) (rootsOf files) hload hord
      refine ⟨he, ?_⟩
      rw [he]
      decide

theorem cycle_aborts_before_execution_witness :
    mainModel exCycPair = (setupTrace, Outcome.dependencyCycle) ∧
    applyCount (mainModel exCycPair).1 = 0 :=
  cycle_aborts_before_execution exCycPair (by decide)
    ⟨"a", Relation.TransGen.tail
      (Relation.TransGen.single (show erel (ajOf exCycPair) "a" "b" by decide))
      (show erel (ajOf exCycPair) "b" "a" by decide)⟩

/-! C4 — acyclic dependency sets get a valid topological order. -/

/-- C4: for every migration set whose `depends_on` names all resolve within
the set and whose built graph is acyclic, the ordering phase returns (rather
than raising) a sequence that contains every input migration name exactly
once, and in which for every edge dependency → dependent the dependency
appears strictly before the dependent. -/
theorem acyclic_topological_order (files : List (String × Migration))
    (hWF : ∀ p, p ∈ files → ∀ d, d ∈ p.2.depends_on → d ∈ files.map Prod.fst)
    (hA : ¬ hasCycle (ajOf files)) :
    ∃ st, check_for_cycles_and_order ((migsOf files).map Prod.fst) (ajOf files) =
        VRes.ok st ∧
      st.node_ordering.Nodup ∧
      (∀ x, x ∈ st.node_ordering ↔ x ∈ files.map Prod.fst) ∧
      (∀ u v, erel (ajOf files) u v →
        ∃ l1 l2, st.node_ordering = l1 ++ u :: l2 ∧ v ∈ l2) := by
  cases hord : check_for_cycles_and_order ((migsOf files).map Prod.fst) (ajOf files) with
  | nofuel => exact absurd hord (check_order_not_nofuel _ _)
  | cyc => exact absurd (check_order_cyc_hasCycle _ _ hord) hA
  | ok st =>
      obtain ⟨hiff, hnd, htopo, hcomp, hprov⟩ := check_order_ok_facts _ _ st hord
      refine ⟨st, rfl, hnd, ?_, ?_⟩
      · intro x
        constructor
        · intro hx
          rcases hprov x hx with hk | ht
          · exact (migsOf_keys files x).mp hk
          · exact ajOf_targets_subset files x ht
        · intro hx
          exact hcomp x ((migsOf_keys files x).mpr hx)
      · intro u v huv
        have hlk : ajLookup (ajOf files) u ≠ [] := by
          intro he
          unfold erel at huv
          rw [he] at huv
          simp at huv
        obtain ⟨p, hp, hd⟩ := ajOf_lookup_nonempty files u hlk
        have hu : u ∈ files.map Prod.fst := hWF p hp u hd
        have hu2 : u ∈ st.node_ordering := hcomp u ((migsOf_keys files u).mpr hu)
        obtain ⟨l1, l2, heq⟩ := List.append_of_mem hu2
        exact ⟨l1, l2, heq, htopo l1 u l2 heq v huv⟩

/-- The concrete root/child example graph has no cycle. -/
lemma exRootChild_acyclic : ¬ hasCycle (ajOf exRootChild) := by
  rintro ⟨n, htg⟩
  have hstep : ∀ a b, erel (ajOf exRootChild) a b → a = "root" ∧ b = "child" := by
    intro a b hab
    unfold erel at hab
    rw [show ajOf exRootChild = [("root", ["child"])] from rfl, ajLookup_cons] at hab
    by_cases ha : ("root" : String) = a
    · rw [if_pos ha] at hab
      simp at hab
      exact ⟨ha.symm, hab⟩
    · rw [if_neg ha] at hab
      simp [ajLookup] at hab
  have hcl : ∀ a b, Relation.TransGen (erel (ajOf exRootChild)) a b →
      a = "root" ∧ b = "child" := by
    intro a b h
    induction h with
    | single h1 => exact hstep _ _ h1
    | tail h1 h2 ih =>
        obtain ⟨ha, hmid⟩ := ih
        obtain ⟨hmid2, hb⟩ := hstep _ _ h2
        rw [hmid] at hmid2
        exact absurd hmid2 (by decide)
  obtain ⟨h1, h2⟩ := hcl n n htg
  rw [h1] at h2
  exact absurd h2 (by decide)

theorem acyclic_topological_order_witness :
    ∃ st, check_for_cycles_and_order ((migsOf exRootChild).map Prod.fst) (ajOf exRootChild) =
        VRes.ok st ∧
      st.node_ordering.Nodup ∧
      (∀ x, x ∈ st.node_ordering ↔ x ∈ exRootChild.map Prod.fst) ∧
      (∀ u v, erel (ajOf exRootChild) u v →
        ∃ l1 l2, st.node_ordering = l1 ++ u :: l2 ∧ v ∈ l2) :=
  acyclic_topological_order exRootChild (by decide) exRootChild_acyclic

/-! C9 — a successful ordering is a permutation of exactly the dict keys. -/

/-- C9: whenever the ordering function returns without raising on the graph
built from the loaded migrations, the result is a permutation of exactly the
migration names, and a name that appears only as a `depends_on` target (a
dangling edge endpoint absent from the mapping) never appears in it. -/
theorem ordering_permutes_keys (files : List (String × Migration))
    (hnd : (files.map Prod.fst).Nodup) (st : VState)
    (h : check_for_cycles_and_order ((migsOf files).map Prod.fst) (ajOf files) =
      VRes.ok st) :
    st.node_ordering.Perm (files.map Prod.fst) ∧
    ∀ g, g ∉ files.map Prod.fst → g ∉ st.node_ordering := by
  obtain ⟨hiff, hndo, htopo, hcomp, hprov⟩ := check_order_ok_facts _ _ st h
  have hmem : ∀ x, x ∈ st.node_ordering ↔ x ∈ files.map Prod.fst := by
    intro x
    constructor
    · intro hx
      rcases hprov x hx with hk | ht
      · exact (migsOf_keys files x).mp hk
      · exact ajOf_targets_subset files x ht
    · intro hx
      exact hcomp x ((migsOf_keys files x).mpr hx)
  constructor
  · exact List.Subperm.antisymm
      (List.Nodup.subperm hndo (fun x hx => (hmem x).mp hx))
      (List.Nodup.subperm hnd (fun x hx => (hmem x).mpr hx))
  · intro g hg hgin
    exact hg ((hmem g).mp hgin)

theorem ordering_permutes_keys_witness :
    (VState.mk [] ["root", "child"] ["root", "child"]).node_ordering.Perm
      (exRootChild.map Prod.fst) ∧
    ∀ g, g ∉ exRootChild.map Prod.fst →
      g ∉ (VState.mk [] ["root", "child"] ["root", "child"]).node_ordering :=
  ordering_permutes_keys exRootChild (by decide) _ (by decide)

/-! C2 — an absent dependency is silently dropped, not an error. -/

/-- C2 counterexample: a migration set whose only migration depends on the
absent name `ghost` does not fail the ordering phase — the ordering completes
normally (there is no unresolved-dependency error anywhere in the code), the
whole run succeeds, and the orphan's step is executed. -/
theorem unresolved_dependency_refuted :
    check_for_cycles_and_order ((migsOf exOrphan).map Prod.fst) (ajOf exOrphan) =
      VRes.ok (VState.mk [] ["orphan"] ["orphan"]) ∧
    (mainModel exOrphan).2 = Outcome.success ∧
    MEvent.applyStep "orphan" 0 ∈ (mainModel exOrphan).1 :=
  ⟨by decide, rfl, by decide⟩

/-- C2 (amended): a `depends_on` name absent from the loaded set is silently
dropped: ordering does not fail on its account, and whenever ordering
returns, the absent name never appears in the computed order. -/
theorem absent_dependency_silently_dropped (files : List (String × Migration)) (g : String)
    (hg : g ∉ files.map Prod.fst) (st : VState)
    (h : check_for_cycles_and_order ((migsOf files).map Prod.fst) (ajOf files) =
      VRes.ok st) :
    g ∉ st.node_ordering := by
  obtain ⟨hiff, hndo, htopo, hcomp, hprov⟩ := check_order_ok_facts _ _ st h
  intro hgin
  rcases hprov g hgin with hk | ht
  · exact hg ((migsOf_keys files g).mp hk)
  · exact hg (ajOf_targets_subset files g ht)

theorem absent_dependency_silently_dropped_witness :
    ("ghost" : String) ∉ (VState.mk [] ["orphan"] ["orphan"]).node_ordering :=
  absent_dependency_silently_dropped exOrphan "ghost" (by decide) _ (by decide)
